import Mathlib

set_option maxHeartbeats 2000000
set_option maxRecDepth 4000

/-!
Shallow embedding of the EnergyFlow repository's multigraph generation
pipeline (`src/energyflow/multigraphs/gen.py`) and of its softdrop
grooming utility (`src/energyflow/utils/fastjet_utils.py`), together with
proofs about the spec-level claims made about them.

Conventions used throughout:
* igraph graph objects are represented by their integer edge lists
  (`List (ℕ × ℕ)`), exactly what `get_edgelist()` returns; a bucket key
  `(n, e)` carries the vertex count.
* Python dicts keyed by `(n, e)` tuples become total functions
  `ℕ × ℕ → _` that return the empty list on absent keys (where CPython
  would raise `KeyError`, which never happens on the runs the claims are
  about).
* Machine floats are modelled by rationals.
-/

namespace EnergyFlow

/-! ## Softdrop (src/energyflow/utils/fastjet_utils.py) -/

/-- Binary clustering tree of a FastJet PseudoJet, carrying exactly the data
that `softdrop` reads from the FastJet API: the transverse momentum `pt` of
every (sub)jet and, at each internal node, the angular separation
`delta_R` between the two parents obtained by declustering that node. -/
inductive Jet where
  | particle (pt : ℚ)
  | merge (pt : ℚ) (deltaR : ℚ) (parent1 : Jet) (parent2 : Jet)
deriving DecidableEq, Repr

/-- The transverse momentum `jet.pt()` of a (sub)jet. -/
def Jet.pt : Jet → ℚ
  | .particle p => p
  | .merge p _ _ _ => p

/-- Embedding of `softdrop` (fastjet_utils.py, lines 123-133).  A jet with
no parents is returned as is; otherwise the two parents are read off, and
the jet is returned when `z >= (zcut if beta == 0 else zcut*(dR/R)**beta)`
(note: the source tests `>=`, not the strict `>` of its docstring);
otherwise the harder parent is groomed recursively.  `beta` is modelled as
a natural-number exponent. -/
def softdrop (zcut : ℚ) (beta : ℕ) (R : ℚ) : Jet → Jet
  | .particle p => .particle p
  | .merge p dR j1 j2 =>
      let pt1 := j1.pt
      let pt2 := j2.pt
      let z := min pt1 pt2 / (pt1 + pt2)
      if z ≥ (if beta = 0 then zcut else zcut * (dR / R) ^ beta) then
        .merge p dR j1 j2
      else if pt1 ≥ pt2 then softdrop zcut beta R j1 else softdrop zcut beta R j2

/-! ## Integer partitions

`int_partition_ordered` and `int_partition_unordered` live in
`energyflow/algorithms` which is not part of the provided sources; they are
modelled from the spec below. -/

/-- Modelled from the spec: `int_partition_ordered d e` ("enumerate all
ordered integer partitions of `d` into exactly `e` positive parts", spec
section 4.2); the missing source is `energyflow/algorithms`.  Returns every
list of length `e` of positive integers summing to `d`. -/
def intPartitionOrdered : ℕ → ℕ → List (List ℕ)
  | d, 0 => if d = 0 then [[]] else []
  | d, e + 1 =>
      (List.range d).flatMap fun i =>
        (intPartitionOrdered (d - (i + 1)) e).map fun rest => (i + 1) :: rest

/-- Partitions of `n` into parts of size at most `m`, each part positive,
listed with weakly decreasing parts; structural recursion on a fuel
argument that is kept at least `n`. -/
def partitionsLEGo : ℕ → ℕ → ℕ → List (List ℕ)
  | _, 0, _ => [[]]
  | 0, _ + 1, _ => []
  | fuel + 1, n + 1, m =>
      (List.range (min (n + 1) m)).flatMap fun i =>
        (partitionsLEGo fuel (n + 1 - (i + 1)) (i + 1)).map
          fun rest => (i + 1) :: rest

/-- Partitions of `n` into positive parts of size at most `m`. -/
def partitionsLE (n m : ℕ) : List (List ℕ) :=
  partitionsLEGo n n m

/-- Modelled from the spec: `int_partition_unordered n` ("enumerate
unordered integer partitions", spec section 4.3); the missing source is
`energyflow/algorithms`.  Every unordered partition of `n` appears exactly
once, as a weakly decreasing list of positive parts. -/
def intPartitionUnordered (n : ℕ) : List (List ℕ) :=
  partitionsLE n n

/-! ## Graph and edge-colour isomorphism

igraph's `isomorphic` and `isomorphic_vf2` are external-library calls; they
are embedded by their mathematical meaning on edge-list graphs: a vertex
relabelling (a permutation of `0..n-1`, represented as the list of images)
carrying one edge multiset onto the other, respecting edge colours in the
`vf2` case. -/

/-- Canonical (min, max) presentation of an undirected edge. -/
def sortPair (e : ℕ × ℕ) : ℕ × ℕ := if e.1 ≤ e.2 then e else (e.2, e.1)

/-- Apply a vertex relabelling, given as the list of images of `0, 1, ...`;
vertices beyond the list are kept fixed. -/
def applyP (p : List ℕ) (v : ℕ) : ℕ := p.getD v v

/-- Image of an undirected edge under a vertex relabelling. -/
def mapEdge (p : List ℕ) (e : ℕ × ℕ) : ℕ × ℕ :=
  sortPair (applyP p e.1, applyP p e.2)

/-- Embedding of igraph's `Graph.isomorphic` for simple undirected graphs
on vertices `0..n-1` given by their edge lists. -/
def isoGraph (n : ℕ) (g1 g2 : List (ℕ × ℕ)) : Prop :=
  ∃ p ∈ (List.range n).permutations',
    List.Perm (g1.map (mapEdge p)) (g2.map sortPair)

instance (n : ℕ) (g1 g2 : List (ℕ × ℕ)) : Decidable (isoGraph n g1 g2) := by
  unfold isoGraph; exact List.decidableBEx _ _

/-- Embedding of igraph's `isomorphic_vf2(other=graph, edge_color1=w1,
edge_color2=w2)` on a single simple graph: a vertex relabelling that maps
the graph onto itself and carries the first colouring onto the second. -/
def isoWeight (n : ℕ) (edges : List (ℕ × ℕ)) (w1 w2 : List ℕ) : Prop :=
  ∃ p ∈ (List.range n).permutations',
    List.Perm ((edges.zip w1).map fun ec => (mapEdge p ec.1, ec.2))
      ((edges.zip w2).map fun ec => (sortPair ec.1, ec.2))

instance (n : ℕ) (edges : List (ℕ × ℕ)) (w1 w2 : List ℕ) :
    Decidable (isoWeight n edges w1 w2) := by
  unfold isoWeight; exact List.decidableBEx _ _

/-- Inverse relabelling of a permutation list `p` of `0..n-1`. -/
def invP (p : List ℕ) (n : ℕ) : List ℕ :=
  (List.range n).map fun v => p.indexOf v

/-! ## Variable elimination (modelled)

`VariableElimination` lives in `energyflow/algorithms`, which is not among
the provided sources; only its call sites are.  It is modelled from the
spec below; the claims never depend on particular `chi` values except on
the two graphs of the `dmax=2` scenario, where the modelled value (2)
agrees with the catalogue value used by the repository. -/

/-- Neighbour list of vertex `v` in an edge list, each neighbour once. -/
def neighborsOf (v : ℕ) (edges : List (ℕ × ℕ)) : List ℕ :=
  (edges.filterMap fun e =>
    if e.1 = v then some e.2 else if e.2 = v then some e.1 else none).dedup

/-- First vertex of `verts` with the fewest neighbours in `edges`. -/
def argminDegree (verts : List ℕ) (edges : List (ℕ × ℕ)) : ℕ :=
  match verts with
  | [] => 0
  | v :: vs =>
      vs.foldl
        (fun best w =>
          if (neighborsOf w edges).length < (neighborsOf best edges).length
          then w else best) v

/-- Undirected clique edges over a vertex list, canonically ordered. -/
def cliquePairs : List ℕ → List (ℕ × ℕ)
  | [] => []
  | a :: rest => (rest.map fun b => sortPair (a, b)) ++ cliquePairs rest

/-- Eliminate vertex `v`: drop its edges, connect its neighbours. -/
def elimVertex (v : ℕ) (edges : List (ℕ × ℕ)) : List (ℕ × ℕ) :=
  let keep := edges.filter fun e => e.1 ≠ v ∧ e.2 ≠ v
  keep ++ (cliquePairs (neighborsOf v edges)).filter
    fun e => e ∉ keep.map sortPair

def veChiGo : ℕ → List ℕ → List (ℕ × ℕ) → ℕ → ℕ
  | 0, _, _, acc => acc
  | _ + 1, [], _, acc => acc
  | fuel + 1, verts@(_ :: _), edges, acc =>
      let v := argminDegree verts edges
      let nbrs := neighborsOf v edges
      veChiGo fuel (verts.erase v) (elimVertex v edges) (max acc (nbrs.length + 1))

/-- Modelled from the spec: `VariableElimination.run`/`chi` ("computes an
elimination order over the `n` vertices of a graph with the given edge
list, minimizing (greedily ...) the total contraction cost; exposes `chi`
(a numeric complexity measure — intermediate tensor size product)", spec
section 4.1); the missing source is `energyflow/algorithms`.  Greedy
minimum-degree elimination; `chi` is the largest number of indices carried
by an intermediate (eliminated vertex plus its current neighbours). -/
def veChi (edges : List (ℕ × ℕ)) (n : ℕ) : ℕ :=
  veChiGo n (List.range n) edges 0

/-- Greatest vertex degree, as igraph's `Graph.maxdegree()`. -/
def maxDegree (n : ℕ) (edges : List (ℕ × ℕ)) : ℕ :=
  ((List.range n).map fun v =>
    (edges.filter fun e => e.1 = v ∨ e.2 = v).length).foldr max 0

/-- Greatest weighted vertex degree, as `max(graph.strength(weights=part))`
in gen.py line 201. -/
def maxStrength (n : ℕ) (edges : List (ℕ × ℕ)) (part : List ℕ) : ℕ :=
  ((List.range n).map fun v =>
    ((edges.zip part).filterMap fun ec =>
      if ec.1.1 = v ∨ ec.1.2 = v then some ec.2 else none).sum).foldr max 0

/-! ## PrimeGenerator configuration and simple-graph search -/

/-- The five search budgets of `PrimeGenerator`. -/
structure Config where
  dmax : ℕ
  nmax : ℕ
  emax : ℕ
  cmax : ℕ
  vmax : ℕ
deriving DecidableEq, Repr

/-- Default budget resolution of `PrimeGenerator.__init__` (gen.py lines
66-70): `nmax=dmax+1`, `emax=dmax`, `cmax=nmax`, `vmax=dmax`. -/
def defaultConfig (dmax : ℕ) : Config :=
  { dmax := dmax, nmax := dmax + 1, emax := dmax, cmax := dmax + 1,
    vmax := dmax }

/-- `self.ns = list(range(2, nmax+1))` (gen.py line 74). -/
def Config.ns (cfg : Config) : List ℕ := List.range' 2 (cfg.nmax - 1)

/-- `self.emaxs[n] = min(emax, int(n/2*(n-1)))` (gen.py line 75). -/
def Config.emaxAt (cfg : Config) (n : ℕ) : ℕ := min cfg.emax (n * (n - 1) / 2)

/-- `self.esbyn[n] = list(range(n-1, emaxs[n]+1))` (gen.py line 76). -/
def Config.esbyn (cfg : Config) (n : ℕ) : List ℕ :=
  List.range' (n - 1) (cfg.emaxAt n + 1 - (n - 1))

/-- `self.dmaxs[(n,e)] = dmax` (gen.py line 79). -/
def Config.dmaxAt (cfg : Config) (_n _e : ℕ) : ℕ := cfg.dmax

/-- Data cached for an accepted simple graph: its edge list, its
elimination complexity and its maximum valency (the einsum string and path
of the contraction plan are not modelled; no claim mentions them). -/
structure SimpleEntry where
  edges : List (ℕ × ℕ)
  chi : ℕ
  maxv : ℕ
deriving DecidableEq, Repr

/-- The `(n,e)`-keyed containers of `PrimeGenerator`; absent keys are
read as empty lists (CPython would raise `KeyError`, which does not happen
on runs with `dmax >= 1`). -/
abbrev Store := ℕ × ℕ → List SimpleEntry

abbrev WStore := ℕ × ℕ → List (List (List ℕ))

/-- Pointwise update of a dictionary represented as a total function. -/
def updateStore {κ β : Type} [DecidableEq κ] (st : κ → β) (key : κ) (val : β) :
    κ → β :=
  fun k => if k = key then val else st k

/-- Embedding of `PrimeGenerator._add_if_new` (gen.py lines 134-161):
reject a candidate isomorphic to an accepted graph of the same bucket,
then reject on `chi > cmax`, then on `maxdegree > vmax`, else append. -/
def addIfNew (cfg : Config) (st : Store) (g : List (ℕ × ℕ)) (ne : ℕ × ℕ) :
    Store :=
  if (st ne).any fun old => decide (isoGraph ne.1 g old.edges) then st
  else
    let chi := veChi g ne.1
    if cfg.cmax < chi then st
    else
      let mv := maxDegree ne.1 g
      if cfg.vmax < mv then st
      else updateStore st ne ((st ne) ++ [⟨g, chi, mv⟩])

/-- `self.base_edges[n] = list(itertools.combinations(range(n), 2))`
(gen.py line 96). -/
def baseEdges (n : ℕ) : List (ℕ × ℕ) :=
  (List.range n).flatMap fun a => ((List.range n).drop (a + 1)).map fun b => (a, b)

/-- Embedding of `PrimeGenerator._edge_filter` (gen.py lines 163-167). -/
def edgeFilter (n : ℕ) (edges : List (ℕ × ℕ)) : List (ℕ × ℕ) :=
  (baseEdges n).filter fun e => e ∉ edges

/-- Embedding of `PrimeGenerator.generate_simple` (gen.py lines 94-132):
seed the single edge into bucket `(2,1)`, then for each `n > 2` and each
`e`, grow candidates by attaching a new vertex to an `(n-1,e-1)` graph or
adding a missing edge to an `(n,e-1)` graph, screening each candidate
through `_add_if_new`. -/
def generateSimple (cfg : Config) : Store :=
  let st0 := addIfNew cfg (fun _ => []) [(0, 1)] (2, 1)
  (cfg.ns.tail).foldl
    (fun st n =>
      (cfg.esbyn n).foldl
        (fun st e =>
          let st1 :=
            if e - 1 ∈ cfg.esbyn (n - 1) then
              (st (n - 1, e - 1)).foldl
                (fun st2 seed =>
                  (List.range (n - 1)).foldl
                    (fun st3 v => addIfNew cfg st3 (seed.edges ++ [(v, n - 1)]) (n, e))
                    st2)
                st
            else st
          if e - 1 ∈ cfg.esbyn n then
            (st1 (n, e - 1)).foldl
              (fun st2 seed =>
                (edgeFilter n seed.edges).foldl
                  (fun st3 newEdge => addIfNew cfg st3 (seed.edges ++ [newEdge]) (n, e))
                  st2)
              st1
          else st1)
        st)
    st0

/-! ## Weighting search -/

/-- Embedding of the inner loops of `PrimeGenerator.generate_weights`
(gen.py lines 189-214) for one stored simple graph with `e` edges on `n`
vertices: for every degree `d` from `e` to `dmaxs[(n,e)]` and every
ordered partition of `d` into `e` positive parts, skip the candidate when
`vmax < dmax` and its weighted valency exceeds `vmax`, skip it when it is
`isomorphic_vf2`-equivalent to an already accepted weighting of this
graph, and otherwise accept it.  (The Python `parts` dictionary at lines
176-181 only memoizes `int_partition_ordered d e` and is semantically
transparent.) -/
def weightingsFor (cfg : Config) (n e : ℕ) (g : SimpleEntry) : List (List ℕ) :=
  (List.range' e (cfg.dmaxAt n e + 1 - e)).foldl
    (fun acc d =>
      (intPartitionOrdered d e).foldl
        (fun acc part =>
          if cfg.vmax < cfg.dmax ∧ cfg.vmax < maxStrength n g.edges part then acc
          else if acc.any fun w => decide (isoWeight n g.edges w part) then acc
          else acc ++ [part])
        acc)
    []

/-- Variant of `weightingsFor` with the weighted-valency rejection removed
altogether, written after the spec's words ("reject any whose resulting
max weighted-degree exceeds `vmax` (when tighter than the global max)"),
for comparison with the source's behaviour in claim C9. -/
def weightingsForNoValency (cfg : Config) (n e : ℕ) (g : SimpleEntry) :
    List (List ℕ) :=
  (List.range' e (cfg.dmaxAt n e + 1 - e)).foldl
    (fun acc d =>
      (intPartitionOrdered d e).foldl
        (fun acc part =>
          if acc.any fun w => decide (isoWeight n g.edges w part) then acc
          else acc ++ [part])
        acc)
    []

/-- Embedding of `PrimeGenerator.generate_weights` (gen.py lines 170-218):
bucket `(2,1)` gets the single trivial weighting list
`[(1,), ..., (dmax,)]` (line 173); every bucket `(n,e)` with `n` in
`ns[1:]` gets one accepted-weighting list per stored simple graph. -/
def generateWeights (cfg : Config) (gs : Store) : WStore :=
  fun ne =>
    if ne = (2, 1) ∧ 2 ∈ cfg.ns ∧ 1 ∈ cfg.esbyn 2 then
      [(List.range (cfg.dmaxAt 2 1)).map fun i => [i + 1]]
    else if ne.1 ∈ cfg.ns.tail ∧ ne.2 ∈ cfg.esbyn ne.1 then
      (gs ne).map fun g => weightingsFor cfg ne.1 ne.2 g
    else []

/-- Store-level variant of `generateWeights` built from
`weightingsForNoValency`: the weighting search with no weighted-valency
rejection anywhere, after the spec's words; compared against the source's
behaviour in claim C9. -/
def generateWeightsNoValency (cfg : Config) (gs : Store) : WStore :=
  fun ne =>
    if ne = (2, 1) ∧ 2 ∈ cfg.ns ∧ 1 ∈ cfg.esbyn 2 then
      [(List.range (cfg.dmaxAt 2 1)).map fun i => [i + 1]]
    else if ne.1 ∈ cfg.ns.tail ∧ ne.2 ∈ cfg.esbyn ne.1 then
      (gs ne).map fun g => weightingsForNoValency cfg ne.1 ne.2 g
    else []

/-- Mutual non-isomorphism of two accepted simple graphs on `n` vertices. -/
def nonIsoPair (n : ℕ) (a b : SimpleEntry) : Prop :=
  ¬ isoGraph n a.edges b.edges ∧ ¬ isoGraph n b.edges a.edges

/-- The acceptance bounds recorded by `_add_if_new` for a stored graph. -/
def entryBounds (cfg : Config) (n : ℕ) (g : SimpleEntry) : Prop :=
  g.chi = veChi g.edges n ∧ g.chi ≤ cfg.cmax
    ∧ g.maxv = maxDegree n g.edges ∧ g.maxv ≤ cfg.vmax

/-- Bucket-wise invariant of the simple-graph store. -/
def GoodStore (cfg : Config) (st : Store) : Prop :=
  ∀ ne : ℕ × ℕ,
    List.Pairwise (nonIsoPair ne.1) (st ne) ∧ ∀ g ∈ st ne, entryBounds cfg ne.1 g

/-- Mutual non-isomorphism of two accepted weightings of a graph. -/
def nonIsoWeightPair (n : ℕ) (edges : List (ℕ × ℕ)) (a b : List ℕ) : Prop :=
  ¬ isoWeight n edges a b ∧ ¬ isoWeight n edges b a

/-- Validity of a weighting list for a graph with `e` edges: every entry
is a tuple of `e` positive integers. -/
def WValidAt (e : ℕ) (wl : List (List ℕ)) : Prop :=
  ∀ w ∈ wl, w.length = e ∧ ∀ x ∈ w, 1 ≤ x

/-! ## Prime results -/

/-- One row of the 9-column spec table `(n, e, d, v, k, g, w, c, p)`
(gen.py line 15); `g` and `w` are integers because composite rows store
the sentinel value -1 there. -/
structure SpecRow where
  n : ℕ
  e : ℕ
  d : ℕ
  v : ℕ
  k : ℕ
  g : ℤ
  w : ℤ
  c : ℕ
  p : ℕ
deriving DecidableEq, Repr

/-- Accumulator of `PrimeGenerator.results` (gen.py lines 233-235): the
tables built so far, the per-`(n,d)` counter dictionary `ks`, and the
running indices `g` and `w`. -/
structure PrimeResults where
  specs : List SpecRow
  edges : List (List (ℕ × ℕ))
  weights : List (List ℕ)
  ks : ℕ × ℕ → ℕ
  gCount : ℕ
  wCount : ℕ

/-- One pass of the middle loop of `results` (gen.py lines 240-251): emit
one spec row per accepted weighting of the graph (`k = ks.setdefault((n,d),0)`
then `ks[(n,d)] += 1`), then record the graph's edge list. -/
def primeResultsStep (ne : ℕ × ℕ) (st : PrimeResults)
    (entry : SimpleEntry × List (List ℕ)) : PrimeResults :=
  let st1 := entry.2.foldl
    (fun s weighting =>
      let d := weighting.sum
      let k := s.ks (ne.1, d)
      { s with
        specs := s.specs ++
          [⟨ne.1, ne.2, d, entry.1.maxv, k, (s.gCount : ℤ), (s.wCount : ℤ),
            entry.1.chi, 1⟩]
        weights := s.weights ++ [weighting]
        ks := updateStore s.ks (ne.1, d) (k + 1)
        wCount := s.wCount + 1 })
    st
  { st1 with edges := st1.edges ++ [entry.1.edges], gCount := st1.gCount + 1 }

/-- The key list `sorted(self.edges_d.keys())` of gen.py line 236: `ns` is
increasing and each `esbyn[n]` is increasing, so the lexicographically
sorted key order is exactly this nested enumeration. -/
def neKeys (cfg : Config) : List (ℕ × ℕ) :=
  cfg.ns.flatMap fun n => (cfg.esbyn n).map fun e => (n, e)

/-- Embedding of `PrimeGenerator.results` (gen.py lines 220-252). -/
def primeResultsOf (cfg : Config) (gs : Store) (ws : WStore) : PrimeResults :=
  (neKeys cfg).foldl
    (fun st ne => ((gs ne).zip (ws ne)).foldl (primeResultsStep ne) st)
    { specs := [], edges := [], weights := [], ks := fun _ => 0, gCount := 0,
      wCount := 0 }

/-- The full `PrimeGenerator` run: `generate_simple`, `generate_weights`,
then `results()`. -/
def primeGen (cfg : Config) : PrimeResults :=
  let gs := generateSimple cfg
  primeResultsOf cfg gs (generateWeights cfg gs)

/-- Degree bookkeeping invariant of the `results()` accumulator: the `w`
counter tracks the weight table, and every emitted row's `w` index points
at a weighting whose sum is the row's `d`, with `d` at least `e`. -/
def ResultsInv (st : PrimeResults) : Prop :=
  st.wCount = st.weights.length ∧
    ∀ r ∈ st.specs, 0 ≤ r.w ∧ r.w.toNat < st.weights.length
      ∧ r.d = (st.weights.getD r.w.toNat []).sum ∧ r.e ≤ r.d

/-! ## CompositeGenerator (gen.py lines 273-384) -/

/-- Total lexicographic order on pairs, as Python compares 2-tuples. -/
def lexLePair (a b : ℕ × ℕ) : Bool :=
  a.1 < b.1 || (a.1 = b.1 && a.2 ≤ b.2)

/-- Total lexicographic order on triples, as Python compares 3-tuples. -/
def lexLeTriple (a b : ℕ × ℕ × ℕ) : Bool :=
  a.1 < b.1 || (a.1 = b.1 && lexLePair a.2 b.2)

def insertSorted {α : Type} (le : α → α → Bool) (x : α) : List α → List α
  | [] => [x]
  | y :: ys => if le x y then x :: y :: ys else y :: insertSorted le x ys

/-- Insertion sort; with a strict comparison this is stable, matching
Python's `sort`/`sorted`. -/
def sortLe {α : Type} (le : α → α → Bool) (l : List α) : List α :=
  l.foldr (insertSorted le) []

/-- Insertion-ordered deduplication, embedding a CPython `set` built
incrementally (iteration order of the embedded set is this insertion
order; where the claims are settled below every such set has at most one
element, so the unspecified CPython hash order is immaterial). -/
def dedupInsert {α : Type} [DecidableEq α] (l : List α) : List α :=
  l.foldl (fun acc x => if x ∈ acc then acc else acc ++ [x]) []

/-- `itertools.product`, rightmost factor varying fastest. -/
def listProd {α : Type} : List (List α) → List (List α)
  | [] => [[]]
  | l :: ls => l.flatMap fun x => (listProd ls).map fun rest => x :: rest

/-- Python `max` over a list (0 on the empty list, where CPython raises;
this happens only on inputs on which the source would crash). -/
def maxList (l : List ℕ) : ℕ := l.foldr max 0

/-- The partition filter of gen.py line 308: no parts equal to 1, no part
exceeding the largest available prime vertex count, more than one part. -/
def goodPart (nmaxAvail : ℕ) (x : List ℕ) : Bool :=
  decide (1 ∉ x) && decide (maxList x ≤ nmaxAvail) && decide (1 < x.length)

/-- `self.ks` of `CompositeGenerator.__init__` (gen.py lines 290-294): the
number of spec rows per `(n, d)`; an absent key reads as 0, which also
encodes `(n,d) not in self.ks`. -/
def ksOf (cSpecs : List SpecRow) : ℕ × ℕ → ℕ :=
  cSpecs.foldl
    (fun ks row => updateStore ks (row.n, row.d) (ks (row.n, row.d) + 1))
    (fun _ => 0)

/-- `self.ndk2w` of `CompositeGenerator.__init__` (gen.py line 295): maps
`(n, d, k)` to the `w` entry of the corresponding spec row. -/
def ndk2wOf (cSpecs : List SpecRow) : ℕ × ℕ × ℕ → ℤ :=
  cSpecs.foldl
    (fun m row => updateStore m (row.n, row.d, row.k) row.w)
    (fun _ => 0)

/-- `self.nmax_avail = np.max(self.c_specs[:, n_ind])` (gen.py line 297). -/
def nmaxAvailOf (cSpecs : List SpecRow) : ℕ := maxList (cSpecs.map (·.n))

/-- The filtered, length-sorted vertex partitions of gen.py lines 307-310. -/
def goodParts (nmaxAvail n : ℕ) : List (List ℕ) :=
  sortLe (fun a b => a.length < b.length)
    ((intPartitionUnordered n).filter (goodPart nmaxAvail))

/-- The `specs` set built at gen.py lines 326-344 for one `(n_part, d_parts)`
pair: over every distinct ordering of `n_part` and every `d_part`, form the
sorted pair list and keep it when every `(n_i, d_i)` names at least one
available prime. -/
def specsSetFor (ks : ℕ × ℕ → ℕ) (nPart : List ℕ)
    (dParts : List (List ℕ)) : List (List (ℕ × ℕ)) :=
  dedupInsert <|
    (dedupInsert nPart.permutations').flatMap fun npo =>
      dParts.filterMap fun dPart =>
        let spec := sortLe lexLePair (npo.zip dPart)
        if spec.all fun pr => ks pr ≠ 0 then some spec else none

/-- The inner formula loop of gen.py lines 346-373 for one canonical
`spec`: `kcount` restarts at `self.ks[(n,d)]` (0 when absent), and every
choice of prime indices from `itertools.product` contributes one
`(formula, spec-row)` pair, with `emax`/`vmax`/`cmax` the maxima over the
constituent prime rows looked up through `ndk2w`. -/
def rowsForSpec (cSpecs : List SpecRow) (ks : ℕ × ℕ → ℕ)
    (ndk2w : ℕ × ℕ × ℕ → ℤ) (n d : ℕ) (spec : List (ℕ × ℕ)) :
    List (List (ℕ × ℕ × ℕ) × SpecRow) :=
  let kcount0 := ks (n, d)
  (listProd (spec.map fun pr => List.range (ks pr))).enum.map fun ik =>
    let kspec := ik.2
    let formula := sortLe lexLeTriple
      ((spec.zip kspec).map fun prk => (prk.1.1, prk.1.2, prk.2))
    let stats := (spec.zip kspec).foldl
      (fun acc prk =>
        let ind := (ndk2w (prk.1.1, prk.1.2, prk.2)).toNat
        let row := cSpecs.getD ind ⟨0, 0, 0, 0, 0, 0, 0, 0, 0⟩
        (max acc.1 row.c, max acc.2.1 row.e, max acc.2.2 row.v))
      ((0, 0, 0) : ℕ × ℕ × ℕ)
    (formula,
      ⟨n, stats.2.1, d, stats.2.2, kcount0 + ik.1, -1, -1, stats.1,
        kspec.length⟩)

/-- The final deduplication of gen.py lines 375-381: keep a
`(formula, row)` pair exactly when its formula has not occurred before. -/
def dedupFirst {α β : Type} [DecidableEq α] :
    List (α × β) → List α → List (α × β)
  | [], _ => []
  | fr :: rest, seen =>
      if fr.1 ∈ seen then dedupFirst rest seen
      else fr :: dedupFirst rest (fr.1 :: seen)

/-- Embedding of `CompositeGenerator.generate_disconnected` (gen.py lines
301-381), parameterised by the prime spec table, the sorted key list `ns`
of the degree-cap dictionary `dmaxs`, and its lookup function. -/
def generateDisconnected (cSpecs : List SpecRow) (nsList : List ℕ)
    (dmaxFn : ℕ → ℕ) : List (List (ℕ × ℕ × ℕ) × SpecRow) :=
  let ks := ksOf cSpecs
  let ndk2w := ndk2wOf cSpecs
  let nAvail := nmaxAvailOf cSpecs
  let rows := nsList.flatMap fun n =>
    let nParts := goodParts nAvail n
    (List.range' ((n - 1) / 2 + 1) (dmaxFn n + 1 - ((n - 1) / 2 + 1))).flatMap
      fun d =>
        nParts.flatMap fun nPart =>
          let dParts := (intPartitionUnordered d).filter
            fun x => x.length = nPart.length
          if dParts = [] then []
          else
            (specsSetFor ks nPart dParts).flatMap fun spec =>
              rowsForSpec cSpecs ks ndk2w n d spec
  dedupFirst rows []

/-- `range(4, 2*dmaxs+1)`, the keys of the default composite degree-cap
dictionary (gen.py line 287). -/
def compositeNsOfInt (dmaxsInt : ℕ) : List ℕ :=
  List.range' 4 (2 * dmaxsInt + 1 - 4)

/-- Composite generation with an integer `dmaxs` argument. -/
def compositeOfInt (cSpecs : List SpecRow) (dmaxsInt : ℕ) :
    List (List (ℕ × ℕ × ℕ) × SpecRow) :=
  generateDisconnected cSpecs (compositeNsOfInt dmaxsInt) fun _ => dmaxsInt

/-- `dmaxs = np.max(self.c_specs[:, d_ind])` when `comp_dmaxs` is None
(gen.py lines 283-284). -/
def defaultCompDmax (cSpecs : List SpecRow) : ℕ := maxList (cSpecs.map (·.d))

/-- Composite generation under the `Generator` default `comp_dmaxs=None`. -/
def compositeDefault (cSpecs : List SpecRow) :
    List (List (ℕ × ℕ × ℕ) × SpecRow) :=
  compositeOfInt cSpecs (defaultCompDmax cSpecs)

/-- The merged spec table of `Generator.specs` (gen.py lines 36-43):
prime rows followed by composite rows, under default `comp_dmaxs`. -/
def generatorSpecs (cfg : Config) : List SpecRow :=
  (primeGen cfg).specs ++ (compositeDefault (primeGen cfg).specs).map (·.2)

/-- The merged spec table of a `Generator` run with a dictionary
`comp_dmaxs` whose sorted key list is `nsList` and whose lookup is
`dmaxFn` (gen.py lines 280-281, 288). -/
def generatorSpecsDict (cfg : Config) (nsList : List ℕ) (dmaxFn : ℕ → ℕ) :
    List SpecRow :=
  (primeGen cfg).specs ++
    (generateDisconnected (primeGen cfg).specs nsList dmaxFn).map (·.2)

/-! ## Elementary lemmas about the embedded operations -/

theorem intPartitionOrdered_mem {d e : ℕ} {part : List ℕ}
    (h : part ∈ intPartitionOrdered d e) :
    part.length = e ∧ part.sum = d ∧ ∀ x ∈ part, 1 ≤ x := by
  induction e generalizing d part with
  | zero =>
      simp only [intPartitionOrdered] at h
      split at h <;> simp_all
  | succ e ih =>
      simp only [intPartitionOrdered, List.mem_flatMap, List.mem_map,
        List.mem_range] at h
      obtain ⟨i, hi, rest, hrest, rfl⟩ := h
      obtain ⟨hlen, hsum, hpos⟩ := ih hrest
      refine ⟨by simp [hlen], by simp [hsum]; omega, ?_⟩
      intro x hx
      rcases List.mem_cons.mp hx with rfl | hx
      · omega
      · exact hpos x hx

theorem partitionsLEGo_mem {fuel n m : ℕ} {part : List ℕ}
    (hle : n ≤ fuel) (h : part ∈ partitionsLEGo fuel n m) :
    part.sum = n ∧ ∀ x ∈ part, 1 ≤ x := by
  induction fuel generalizing n m part with
  | zero =>
      match n with
      | 0 => simp only [partitionsLEGo] at h; simp_all
  | succ fuel ih =>
      match n with
      | 0 => simp only [partitionsLEGo] at h; simp_all
      | n + 1 =>
          simp only [partitionsLEGo, List.mem_flatMap, List.mem_map,
            List.mem_range] at h
          obtain ⟨i, hi, rest, hrest, rfl⟩ := h
          obtain ⟨hsum, hpos⟩ := ih (by omega) hrest
          refine ⟨by simp [hsum]; omega, ?_⟩
          intro x hx
          rcases List.mem_cons.mp hx with rfl | hx
          · omega
          · exact hpos x hx

theorem partitionsLE_mem {n m : ℕ} {part : List ℕ}
    (h : part ∈ partitionsLE n m) :
    part.sum = n ∧ ∀ x ∈ part, 1 ≤ x :=
  partitionsLEGo_mem le_rfl h

theorem intPartitionUnordered_mem {n : ℕ} {part : List ℕ}
    (h : part ∈ intPartitionUnordered n) :
    part.sum = n ∧ ∀ x ∈ part, 1 ≤ x :=
  partitionsLE_mem h


theorem sortPair_swap (a b : ℕ) : sortPair (a, b) = sortPair (b, a) := by
  simp only [sortPair]
  split <;> split <;> first | rfl | (exact congrArg₂ Prod.mk (by omega) (by omega))

theorem mapEdge_sortPair (p : List ℕ) (e : ℕ × ℕ) :
    mapEdge p (sortPair e) = mapEdge p e := by
  obtain ⟨a, b⟩ := e
  simp only [sortPair, mapEdge]
  split
  · rfl
  · exact sortPair_swap _ _

section Inverse

variable {p : List ℕ} {n : ℕ}

theorem perm_of_mem_permutations (hp : p ∈ (List.range n).permutations') :
    List.Perm p (List.range n) :=
  List.mem_permutations'.mp hp

theorem length_of_mem_permutations (hp : p ∈ (List.range n).permutations') :
    p.length = n := by
  have := (perm_of_mem_permutations hp).length_eq
  simpa using this

theorem nodup_of_mem_permutations (hp : p ∈ (List.range n).permutations') :
    p.Nodup :=
  (perm_of_mem_permutations hp).nodup_iff.mpr (List.nodup_range n)

theorem mem_range_of_mem_perm (hp : p ∈ (List.range n).permutations')
    {v : ℕ} (hv : v ∈ p) : v < n := by
  have := (perm_of_mem_permutations hp).subset hv
  simpa using this

theorem applyP_lt (hp : p ∈ (List.range n).permutations')
    {v : ℕ} (hv : v < n) : applyP p v < n := by
  have hlen : p.length = n := length_of_mem_permutations hp
  have hvp : applyP p v ∈ p := by
    simp only [applyP]
    rw [List.getD_eq_getElem _ _ (by omega)]
    exact List.getElem_mem _
  exact mem_range_of_mem_perm hp hvp

theorem applyP_invP_of_lt {w : ℕ} (hw : w < n) :
    applyP (invP p n) w = p.indexOf w := by
  simp only [applyP, invP]
  rw [List.getD_eq_getElem _ _ (by simpa using hw)]
  simp

theorem applyP_invP (hp : p ∈ (List.range n).permutations') (v : ℕ) :
    applyP (invP p n) (applyP p v) = v := by
  have hlen : p.length = n := length_of_mem_permutations hp
  by_cases hv : v < n
  · have hget : applyP p v = p.get ⟨v, by omega⟩ := by
      simp only [applyP]
      rw [List.getD_eq_getElem _ _ (by omega)]
      simp
    have himg : applyP p v < n := applyP_lt hp hv
    rw [applyP_invP_of_lt himg, hget, List.get_indexOf (nodup_of_mem_permutations hp)]
  · have h1 : applyP p v = v := by
      simp only [applyP]
      exact List.getD_eq_default _ _ (by omega)
    have h2 : applyP (invP p n) v = v := by
      simp only [applyP, invP]
      exact List.getD_eq_default _ _ (by simp; omega)
    rw [h1, h2]

theorem invP_mem_permutations (hp : p ∈ (List.range n).permutations') :
    invP p n ∈ (List.range n).permutations' := by
  have hlen : p.length = n := length_of_mem_permutations hp
  have hnd : p.Nodup := nodup_of_mem_permutations hp
  refine List.mem_permutations'.mpr ?_
  have hsub : invP p n ⊆ List.range n := by
    intro x hx
    simp only [invP, List.mem_map, List.mem_range] at hx
    obtain ⟨v, hv, rfl⟩ := hx
    have hvp : v ∈ p := (perm_of_mem_permutations hp).mem_iff.mpr (by simpa using hv)
    have := List.indexOf_lt_length.mpr hvp
    simp only [List.mem_range]
    omega
  have hndinv : (invP p n).Nodup := by
    refine List.Nodup.map_on ?_ (List.nodup_range n)
    intro v1 hv1 v2 hv2 heq
    have hv1p : v1 ∈ p :=
      (perm_of_mem_permutations hp).mem_iff.mpr (by simpa using hv1)
    have hv2p : v2 ∈ p :=
      (perm_of_mem_permutations hp).mem_iff.mpr (by simpa using hv2)
    have h1 : p.get ⟨p.indexOf v1, List.indexOf_lt_length.mpr hv1p⟩ = v1 :=
      List.indexOf_get _
    have h2 : p.get ⟨p.indexOf v2, List.indexOf_lt_length.mpr hv2p⟩ = v2 :=
      List.indexOf_get _
    rw [← h1, ← h2]
    congr 1
    exact Fin.ext heq
  have hlen2 : (invP p n).length = (List.range n).length := by simp [invP]
  exact (List.subperm_of_subset hndinv hsub).perm_of_length_le (by omega)

theorem mapEdge_invP (hp : p ∈ (List.range n).permutations') (e : ℕ × ℕ) :
    mapEdge (invP p n) (mapEdge p e) = sortPair e := by
  obtain ⟨a, b⟩ := e
  have h1 : mapEdge p (a, b) = sortPair (applyP p a, applyP p b) := rfl
  rw [h1, mapEdge_sortPair]
  show sortPair (applyP (invP p n) (applyP p a), applyP (invP p n) (applyP p b))
      = sortPair (a, b)
  rw [applyP_invP hp, applyP_invP hp]

end Inverse

theorem isoGraph_symm {n : ℕ} {g1 g2 : List (ℕ × ℕ)}
    (h : isoGraph n g1 g2) : isoGraph n g2 g1 := by
  obtain ⟨p, hp, hperm⟩ := h
  refine ⟨invP p n, invP_mem_permutations hp, ?_⟩
  have h1 : g2.map (mapEdge (invP p n))
      = (g2.map sortPair).map (mapEdge (invP p n)) := by
    rw [List.map_map]
    exact List.map_congr_left fun x _ => (mapEdge_sortPair _ x).symm
  have h2 : (g1.map (mapEdge p)).map (mapEdge (invP p n)) = g1.map sortPair := by
    rw [List.map_map]
    exact List.map_congr_left fun x _ => mapEdge_invP hp x
  rw [h1, ← h2]
  exact (hperm.symm).map _

theorem isoWeight_symm {n : ℕ} {edges : List (ℕ × ℕ)} {w1 w2 : List ℕ}
    (h : isoWeight n edges w1 w2) : isoWeight n edges w2 w1 := by
  obtain ⟨p, hp, hperm⟩ := h
  refine ⟨invP p n, invP_mem_permutations hp, ?_⟩
  have h1 : ((edges.zip w2).map fun ec => (mapEdge (invP p n) ec.1, ec.2))
      = ((edges.zip w2).map fun ec => (sortPair ec.1, ec.2)).map
          fun ec => (mapEdge (invP p n) ec.1, ec.2) := by
    rw [List.map_map]
    refine List.map_congr_left fun x _ => ?_
    simp only [Function.comp]
    rw [mapEdge_sortPair]
  have h2 : (((edges.zip w1).map fun ec => (mapEdge p ec.1, ec.2)).map
      fun ec => (mapEdge (invP p n) ec.1, ec.2))
      = (edges.zip w1).map fun ec => (sortPair ec.1, ec.2) := by
    rw [List.map_map]
    refine List.map_congr_left fun x _ => ?_
    simp only [Function.comp]
    rw [mapEdge_invP hp]
  rw [h1, ← h2]
  exact (hperm.symm).map _

/-! ## Fold and list helper lemmas -/

theorem foldl_inv_preserved {α σ : Type} {Inv : σ → Prop} {f : σ → α → σ}
    (hf : ∀ s a, Inv s → Inv (f s a)) :
    ∀ (l : List α) (s : σ), Inv s → Inv (l.foldl f s)
  | [], _, hs => hs
  | a :: l, s, hs => foldl_inv_preserved hf l (f s a) (hf s a hs)

theorem foldl_inv_mem {α σ : Type} {Inv : σ → Prop} {f : σ → α → σ} :
    ∀ (l : List α), (∀ s a, a ∈ l → Inv s → Inv (f s a)) →
      ∀ (s : σ), Inv s → Inv (l.foldl f s)
  | [], _, _, hs => hs
  | a :: l, hf, s, hs =>
      foldl_inv_mem l (fun s b hb => hf s b (List.mem_cons_of_mem _ hb))
        (f s a) (hf s a (List.mem_cons_self a l) hs)

theorem length_le_sum {l : List ℕ} (h : ∀ x ∈ l, 1 ≤ x) :
    l.length ≤ l.sum := by
  induction l with
  | nil => simp
  | cons a l ih =>
      have ha := h a (List.mem_cons_self a l)
      have := ih fun x hx => h x (List.mem_cons_of_mem _ hx)
      simp only [List.length_cons, List.sum_cons]
      omega

theorem two_mul_length_le_sum {l : List ℕ} (h : ∀ x ∈ l, 2 ≤ x) :
    2 * l.length ≤ l.sum := by
  induction l with
  | nil => simp
  | cons a l ih =>
      have ha := h a (List.mem_cons_self a l)
      have := ih fun x hx => h x (List.mem_cons_of_mem _ hx)
      simp only [List.length_cons, List.sum_cons]
      omega

theorem mem_insertSorted {α : Type} (le : α → α → Bool) (x a : α) :
    ∀ (l : List α), a ∈ insertSorted le x l ↔ a = x ∨ a ∈ l
  | [] => by simp [insertSorted]
  | y :: ys => by
      simp only [insertSorted]
      split
      · simp [List.mem_cons]
      · rw [List.mem_cons, mem_insertSorted le x a ys, List.mem_cons]
        tauto

theorem mem_sortLe {α : Type} (le : α → α → Bool) (a : α) :
    ∀ (l : List α), a ∈ sortLe le l ↔ a ∈ l
  | [] => by simp [sortLe]
  | y :: ys => by
      show a ∈ insertSorted le y (sortLe le ys) ↔ _
      rw [mem_insertSorted, mem_sortLe le a ys, List.mem_cons]

theorem dedupFirst_subset {α β : Type} [DecidableEq α] :
    ∀ (l : List (α × β)) (seen : List α), dedupFirst l seen ⊆ l
  | [], _ => by simp [dedupFirst]
  | fr :: rest, seen => by
      simp only [dedupFirst]
      split
      · exact (dedupFirst_subset rest seen).trans (List.subset_cons_self _ _)
      · intro x hx
        rcases List.mem_cons.mp hx with rfl | hx
        · exact List.mem_cons_self _ _
        · exact List.mem_cons_of_mem _ (dedupFirst_subset rest _ hx)

theorem dedupFirst_nodup {α β : Type} [DecidableEq α] :
    ∀ (l : List (α × β)) (seen : List α),
      ((dedupFirst l seen).map Prod.fst).Nodup
        ∧ ∀ a ∈ (dedupFirst l seen).map Prod.fst, a ∉ seen
  | [], _ => by simp [dedupFirst]
  | fr :: rest, seen => by
      simp only [dedupFirst]
      split
      · exact dedupFirst_nodup rest seen
      next hmem =>
        obtain ⟨h1, h2⟩ := dedupFirst_nodup rest (fr.1 :: seen)
        refine ⟨?_, ?_⟩
        · simp only [List.map_cons, List.nodup_cons]
          exact ⟨fun hc => (h2 _ hc) (List.mem_cons_self _ _), h1⟩
        · intro a ha
          simp only [List.map_cons, List.mem_cons] at ha
          rcases ha with rfl | ha
          · exact hmem
          · exact fun hs => (h2 a ha) (List.mem_cons_of_mem _ hs)

/-! ## Composite-table lemmas -/

theorem rowsForSpec_fields {cSpecs : List SpecRow} {ks : ℕ × ℕ → ℕ}
    {ndk2w : ℕ × ℕ × ℕ → ℤ} {n d : ℕ} {spec : List (ℕ × ℕ)}
    {fr : List (ℕ × ℕ × ℕ) × SpecRow}
    (h : fr ∈ rowsForSpec cSpecs ks ndk2w n d spec) :
    fr.2.n = n ∧ fr.2.d = d ∧ fr.2.g = -1 ∧ fr.2.w = -1 := by
  simp only [rowsForSpec, List.mem_map] at h
  obtain ⟨ik, _, rfl⟩ := h
  exact ⟨rfl, rfl, rfl, rfl⟩

theorem goodParts_n_ge {nAvail n : ℕ} {nPart : List ℕ}
    (h : nPart ∈ goodParts nAvail n) : 4 ≤ n := by
  unfold goodParts at h
  rw [mem_sortLe] at h
  rw [List.mem_filter] at h
  obtain ⟨hmem, hgood⟩ := h
  obtain ⟨hsum, hpos⟩ := intPartitionUnordered_mem hmem
  simp only [goodPart, Bool.and_eq_true, decide_eq_true_eq] at hgood
  obtain ⟨⟨hno1, _⟩, hlen⟩ := hgood
  have h2 : ∀ x ∈ nPart, 2 ≤ x := by
    intro x hx
    have := hpos x hx
    have : x ≠ 1 := fun hx1 => hno1 (hx1 ▸ hx)
    omega
  have := two_mul_length_le_sum h2
  omega

/-! ## Claim theorems for the composite table -/

/-- C10: every row of the composite spec table (even for arbitrary input
spec tables and degree-cap dictionaries) has at least 4 vertices and total
degree `d` with `2*d >= n`: parts of size 1 are excluded and at least two
parts are required, so any usable vertex partition sums to at least 4, and
the degree loop starts at `(n-1)//2 + 1`. -/
theorem composite_row_bounds (cSpecs : List SpecRow) (nsList : List ℕ)
    (dmaxFn : ℕ → ℕ) (fr : List (ℕ × ℕ × ℕ) × SpecRow)
    (h : fr ∈ generateDisconnected cSpecs nsList dmaxFn) :
    4 ≤ fr.2.n ∧ fr.2.n ≤ 2 * fr.2.d := by
  simp only [generateDisconnected] at h
  have h' := dedupFirst_subset _ _ h
  simp only [List.mem_flatMap] at h'
  obtain ⟨n, _, h'⟩ := h'
  obtain ⟨d, hd, h'⟩ := h'
  obtain ⟨nPart, hnp, h'⟩ := h'
  split at h'
  · simp at h'
  · simp only [List.mem_flatMap] at h'
    obtain ⟨spec, _, hfr⟩ := h'
    obtain ⟨h1, h2, _⟩ := rowsForSpec_fields hfr
    rw [List.mem_range'_1] at hd
    refine ⟨?_, ?_⟩
    · rw [h1]; exact goodParts_n_ge hnp
    · rw [h1, h2]; omega

theorem composite_row_bounds_check :
    (([(2, 1, 0), (2, 1, 0)],
        (⟨4, 1, 2, 1, 0, -1, -1, 2, 2⟩ : SpecRow)) ∈
      generateDisconnected (primeGen (defaultConfig 2)).specs
        (compositeNsOfInt 2) fun _ => 2)
    ∧ (4 ≤ (4 : ℕ) ∧ (4 : ℕ) ≤ 2 * 2) :=
  ⟨by decide,
    composite_row_bounds (primeGen (defaultConfig 2)).specs
      (compositeNsOfInt 2) (fun _ => 2)
      ([(2, 1, 0), (2, 1, 0)], ⟨4, 1, 2, 1, 0, -1, -1, 2, 2⟩) (by decide)⟩

/-- C8: after the final first-occurrence deduplication pass, the canonical
sorted formula tuples of the retained composite rows are pairwise
distinct, for every input spec table and degree-cap dictionary. -/
theorem composite_formulae_distinct (cSpecs : List SpecRow)
    (nsList : List ℕ) (dmaxFn : ℕ → ℕ) :
    ((generateDisconnected cSpecs nsList dmaxFn).map Prod.fst).Nodup := by
  simp only [generateDisconnected]
  exact (dedupFirst_nodup _ _).1

/-! ## Facts about the weighting table of the single-edge graph -/

theorem generateWeights_single_edge (cfg : Config) (gs : Store)
    (h2 : 2 ∈ cfg.ns) (h1 : 1 ∈ cfg.esbyn 2) :
    generateWeights cfg gs (2, 1)
      = [(List.range cfg.dmax).map fun i => [i + 1]] := by
  unfold generateWeights
  simp [h2, h1, Config.dmaxAt]

/-! ## Store update lemmas -/

theorem updateStore_same {κ β : Type} [DecidableEq κ] (st : κ → β) (k : κ)
    (v : β) : updateStore st k v k = v := by
  simp [updateStore]

theorem updateStore_other {κ β : Type} [DecidableEq κ] (st : κ → β)
    (k k' : κ) (v : β) (h : k' ≠ k) : updateStore st k v k' = st k' := by
  simp [updateStore, h]

/-! ## Invariants of the simple-graph search -/

theorem addIfNew_preserves (cfg : Config) (g : List (ℕ × ℕ)) (ne : ℕ × ℕ)
    {st : Store} (h : GoodStore cfg st) : GoodStore cfg (addIfNew cfg st g ne) := by
  unfold addIfNew
  dsimp only
  split_ifs with h1 h2 h3
  · exact h
  · exact h
  · exact h
  · have hno : ∀ a ∈ st ne, ¬ isoGraph ne.1 g a.edges := by
      intro a ha hiso
      exact h1 (List.any_eq_true.mpr ⟨a, ha, decide_eq_true hiso⟩)
    intro key
    by_cases hkey : key = ne
    · subst hkey
      rw [updateStore_same]
      constructor
      · rw [List.pairwise_append]
        refine ⟨(h key).1, List.pairwise_singleton _ _, ?_⟩
        intro a ha b hb
        rw [List.mem_singleton] at hb
        subst hb
        exact ⟨fun hiso => hno a ha (isoGraph_symm hiso), hno a ha⟩
      · intro g' hg'
        rcases List.mem_append.mp hg' with hg' | hg'
        · exact (h key).2 g' hg'
        · rw [List.mem_singleton] at hg'
          subst hg'
          refine ⟨rfl, ?_, rfl, ?_⟩
          · show veChi g key.1 ≤ cfg.cmax
            omega
          · show maxDegree key.1 g ≤ cfg.vmax
            omega
    · rw [updateStore_other _ _ _ _ hkey]
      exact h key

theorem addIfNew_other (cfg : Config) (g : List (ℕ × ℕ)) (ne key : ℕ × ℕ)
    (st : Store) (h : key ≠ ne) : addIfNew cfg st g ne key = st key := by
  unfold addIfNew
  dsimp only
  split_ifs
  · rfl
  · rfl
  · rfl
  · exact updateStore_other _ _ _ _ h

theorem generateSimple_good (cfg : Config) :
    GoodStore cfg (generateSimple cfg) := by
  have hempty : GoodStore cfg fun _ => [] := fun ne => ⟨List.Pairwise.nil, by simp⟩
  unfold generateSimple
  dsimp only
  refine foldl_inv_preserved ?_ _ _ (addIfNew_preserves cfg _ _ hempty)
  intro st n hst
  refine foldl_inv_preserved ?_ _ _ hst
  intro st e hst
  dsimp only
  have hst1 : GoodStore cfg
      (if e - 1 ∈ cfg.esbyn (n - 1) then
        (st (n - 1, e - 1)).foldl
          (fun st2 seed =>
            (List.range (n - 1)).foldl
              (fun st3 v => addIfNew cfg st3 (seed.edges ++ [(v, n - 1)]) (n, e))
              st2)
          st
      else st) := by
    split
    · refine foldl_inv_preserved ?_ _ _ hst
      intro st2 seed h2
      refine foldl_inv_preserved ?_ _ _ h2
      intro st3 v h3
      exact addIfNew_preserves cfg _ _ h3
    · exact hst
  split
  · refine foldl_inv_preserved ?_ _ _ hst1
    intro st2 seed h2
    refine foldl_inv_preserved ?_ _ _ h2
    intro st3 newEdge h3
    exact addIfNew_preserves cfg _ _ h3
  · exact hst1

theorem addIfNew_self_cases (cfg : Config) (st : Store) (g : List (ℕ × ℕ))
    (ne : ℕ × ℕ) :
    addIfNew cfg st g ne ne = st ne
    ∨ addIfNew cfg st g ne ne
        = st ne ++ [⟨g, veChi g ne.1, maxDegree ne.1 g⟩] := by
  unfold addIfNew
  dsimp only
  split_ifs
  · exact Or.inl rfl
  · exact Or.inl rfl
  · exact Or.inl rfl
  · exact Or.inr (updateStore_same _ _ _)

theorem mem_ns_tail {cfg : Config} {n : ℕ} (h : n ∈ cfg.ns.tail) : 3 ≤ n := by
  unfold Config.ns at h
  cases hnm : cfg.nmax - 1 with
  | zero => rw [hnm] at h; exact absurd h (by simp)
  | succ k =>
      rw [hnm] at h
      have hr : List.range' 2 (k + 1) = 2 :: List.range' 3 k := rfl
      rw [hr] at h
      simp only [List.tail_cons] at h
      exact (List.mem_range'_1.mp h).1

theorem generateSimple_bucket21 (cfg : Config) :
    ∀ g ∈ generateSimple cfg (2, 1), g.edges = [(0, 1)] := by
  unfold generateSimple
  dsimp only
  refine @foldl_inv_mem _ _
    (fun (st : Store) => ∀ g ∈ st (2, 1), g.edges = [(0, 1)]) _ _ ?_ _ ?_
  · intro st n hn hst
    have hn3 : 3 ≤ n := mem_ns_tail hn
    refine @foldl_inv_preserved _ _
      (fun (st : Store) => ∀ g ∈ st (2, 1), g.edges = [(0, 1)]) _ ?_ _ _ hst
    intro st e hst
    dsimp only
    have hne : ((2 : ℕ), (1 : ℕ)) ≠ (n, e) := by
      intro hcontra
      have h1 := congrArg Prod.fst hcontra
      simp only at h1
      omega
    have hpres : ∀ (st3 : Store) (cand : List (ℕ × ℕ)),
        (∀ g ∈ st3 (2, 1), g.edges = [(0, 1)]) →
        ∀ g ∈ addIfNew cfg st3 cand (n, e) (2, 1), g.edges = [(0, 1)] := by
      intro st3 cand h3
      rw [addIfNew_other cfg cand (n, e) (2, 1) st3 hne]
      exact h3
    have hst1 : ∀ g ∈
        (if e - 1 ∈ cfg.esbyn (n - 1) then
          (st (n - 1, e - 1)).foldl
            (fun st2 seed =>
              (List.range (n - 1)).foldl
                (fun st3 v => addIfNew cfg st3 (seed.edges ++ [(v, n - 1)]) (n, e))
                st2)
            st
        else st) (2, 1), g.edges = [(0, 1)] := by
      split
      · refine @foldl_inv_preserved _ _
          (fun (st : Store) => ∀ g ∈ st (2, 1), g.edges = [(0, 1)]) _ ?_ _ _ hst
        intro st2 seed h2
        refine @foldl_inv_preserved _ _
          (fun (st : Store) => ∀ g ∈ st (2, 1), g.edges = [(0, 1)]) _ ?_ _ _ h2
        intro st3 v h3
        exact hpres st3 _ h3
      · exact hst
    split
    · refine @foldl_inv_preserved _ _
        (fun (st : Store) => ∀ g ∈ st (2, 1), g.edges = [(0, 1)]) _ ?_ _ _ hst1
      intro st2 seed h2
      refine @foldl_inv_preserved _ _
        (fun (st : Store) => ∀ g ∈ st (2, 1), g.edges = [(0, 1)]) _ ?_ _ _ h2
      intro st3 newEdge h3
      exact hpres st3 _ h3
    · exact hst1
  · intro g hg
    rcases addIfNew_self_cases cfg (fun _ => []) [(0, 1)] (2, 1) with hc | hc
    · rw [hc] at hg
      exact absurd hg (by simp)
    · rw [hc] at hg
      simp only [List.nil_append, List.mem_singleton] at hg
      subst hg
      rfl

theorem mem_zip_map {α β : Type} (f : α → β) :
    ∀ (l : List α) (pr : α × β), pr ∈ l.zip (l.map f) → pr.2 = f pr.1 := by
  intro l
  induction l with
  | nil => intro pr h; exact absurd h (by simp)
  | cons a l ih =>
      intro pr h
      simp only [List.map_cons, List.zip_cons_cons, List.mem_cons] at h
      rcases h with rfl | h
      · rfl
      · exact ih pr h

theorem isoWeight_single {n a b : ℕ} (h : isoWeight n [(0, 1)] [a] [b]) :
    a = b := by
  obtain ⟨p, _, hperm⟩ := h
  simp only [List.zip_cons_cons, List.zip_nil_right, List.map_cons,
    List.map_nil] at hperm
  have h2 := List.perm_singleton.mp hperm
  have h3 := List.head_eq_of_cons_eq h2
  exact congrArg Prod.snd h3

theorem weightingsFor_pairwise (cfg : Config) (n e : ℕ) (g : SimpleEntry) :
    List.Pairwise (nonIsoWeightPair n g.edges) (weightingsFor cfg n e g) := by
  unfold weightingsFor
  refine @foldl_inv_preserved _ _
    (fun (acc : List (List ℕ)) => List.Pairwise (nonIsoWeightPair n g.edges) acc) _ ?_ _ _
    List.Pairwise.nil
  intro acc d hacc
  refine @foldl_inv_preserved _ _
    (fun (acc : List (List ℕ)) => List.Pairwise (nonIsoWeightPair n g.edges) acc) _ ?_ _ _ hacc
  intro acc2 part hacc2
  split_ifs with h1 h2
  · exact hacc2
  · exact hacc2
  · rw [List.pairwise_append]
    refine ⟨hacc2, List.pairwise_singleton _ _, ?_⟩
    intro a ha b hb
    rw [List.mem_singleton] at hb
    subst hb
    have hno : ¬ isoWeight n g.edges a b := by
      intro hiso
      exact h2 (List.any_eq_true.mpr ⟨a, ha, decide_eq_true hiso⟩)
    exact ⟨hno, fun hiso => hno (isoWeight_symm hiso)⟩

/-! ## Degree bookkeeping of the results tables -/

theorem getD_concat_self {α : Type} (l : List α) (x d : α) :
    (l ++ [x]).getD l.length d = x := by
  rw [List.getD_append_right _ _ _ _ le_rfl]
  simp

theorem weightingsFor_valid (cfg : Config) (n e : ℕ) (g : SimpleEntry) :
    WValidAt e (weightingsFor cfg n e g) := by
  unfold weightingsFor
  refine @foldl_inv_preserved _ _ (fun (acc : List (List ℕ)) => WValidAt e acc)
    _ ?_ _ _ ?_
  · intro acc d hacc
    refine @foldl_inv_mem _ _ (fun (acc : List (List ℕ)) => WValidAt e acc)
      _ _ ?_ _ hacc
    intro acc2 part hpart hacc2
    split_ifs with h1 h2
    · exact hacc2
    · exact hacc2
    · intro w hw
      rcases List.mem_append.mp hw with hw | hw
      · exact hacc2 w hw
      · rw [List.mem_singleton] at hw
        subst hw
        obtain ⟨hlen, _, hpos⟩ := intPartitionOrdered_mem hpart
        exact ⟨hlen, hpos⟩
  · intro w hw
    exact absurd hw (by simp)

theorem generateWeights_valid (cfg : Config) (gs : Store) (ne : ℕ × ℕ) :
    ∀ wl ∈ generateWeights cfg gs ne, WValidAt ne.2 wl := by
  intro wl hwl
  unfold generateWeights at hwl
  by_cases hcase1 : ne = (2, 1) ∧ 2 ∈ cfg.ns ∧ 1 ∈ cfg.esbyn 2
  · rw [if_pos hcase1] at hwl
    rw [List.mem_singleton] at hwl
    subst hwl
    intro w hw
    simp only [List.mem_map, List.mem_range] at hw
    obtain ⟨i, _, rfl⟩ := hw
    obtain ⟨hne, -, -⟩ := hcase1
    subst hne
    exact ⟨rfl, by simp⟩
  · rw [if_neg hcase1] at hwl
    by_cases hcase2 : ne.1 ∈ cfg.ns.tail ∧ ne.2 ∈ cfg.esbyn ne.1
    · rw [if_pos hcase2] at hwl
      simp only [List.mem_map] at hwl
      obtain ⟨g, _, rfl⟩ := hwl
      exact weightingsFor_valid cfg ne.1 ne.2 g
    · rw [if_neg hcase2] at hwl
      exact absurd hwl (by simp)

theorem primeResultsStep_inv (ne : ℕ × ℕ) (entry : SimpleEntry × List (List ℕ))
    (hval : WValidAt ne.2 entry.2) {st : PrimeResults} (h : ResultsInv st) :
    ResultsInv (primeResultsStep ne st entry) := by
  unfold primeResultsStep
  dsimp only
  have hinner : ResultsInv (entry.2.foldl
      (fun s weighting =>
        { s with
          specs := s.specs ++
            [⟨ne.1, ne.2, weighting.sum, entry.1.maxv, s.ks (ne.1, weighting.sum),
              (s.gCount : ℤ), (s.wCount : ℤ), entry.1.chi, 1⟩]
          weights := s.weights ++ [weighting]
          ks := updateStore s.ks (ne.1, weighting.sum)
            (s.ks (ne.1, weighting.sum) + 1)
          wCount := s.wCount + 1 }) st) := by
    refine @foldl_inv_mem _ _ ResultsInv _ _ ?_ _ h
    intro s weighting hwmem hs
    obtain ⟨hw, hrows⟩ := hs
    constructor
    · simp only [List.length_append, List.length_singleton]
      omega
    · intro r hr
      rcases List.mem_append.mp hr with hr | hr
      · obtain ⟨h0, hlt, hd, he⟩ := hrows r hr
        refine ⟨h0, ?_, ?_, he⟩
        · simp only [List.length_append, List.length_singleton]
          omega
        · rw [List.getD_append _ _ _ _ hlt]
          exact hd
      · rw [List.mem_singleton] at hr
        subst hr
        obtain ⟨hlen, hpos⟩ := hval weighting hwmem
        refine ⟨?_, ?_, ?_, ?_⟩
        · exact Int.natCast_nonneg _
        · show ((s.wCount : ℤ)).toNat < (s.weights ++ [weighting]).length
          simp only [Int.toNat_natCast, List.length_append,
            List.length_singleton]
          omega
        · show weighting.sum
            = ((s.weights ++ [weighting]).getD ((s.wCount : ℤ)).toNat []).sum
          rw [Int.toNat_natCast, hw, getD_concat_self]
        · show ne.2 ≤ weighting.sum
          calc ne.2 = weighting.length := hlen.symm
          _ ≤ weighting.sum := length_le_sum hpos
  exact hinner

theorem primeResultsOf_inv (cfg : Config) (gs : Store) (ws : WStore)
    (hws : ∀ ne wl, wl ∈ ws ne → WValidAt ne.2 wl) :
    ResultsInv (primeResultsOf cfg gs ws) := by
  unfold primeResultsOf
  refine @foldl_inv_preserved _ _ ResultsInv _ ?_ _ _ ?_
  · intro st ne hst
    refine @foldl_inv_mem _ _ ResultsInv _ _ ?_ _ hst
    intro s entry hentry hs
    obtain ⟨g, wl⟩ := entry
    exact primeResultsStep_inv ne (g, wl)
      (hws ne wl (List.of_mem_zip hentry).2) hs
  · exact ⟨rfl, by simp⟩

/-! ## Claim theorems -/

/-- C5: for every configuration and every `(n,e)` bucket, the accepted
simple graphs are pairwise non-isomorphic and each satisfies the
elimination-complexity bound `chi <= cmax` and the valency bound
`maxdegree <= vmax` — `_add_if_new` rejects any candidate violating one
of the three checks, so only candidates passing all of them are stored. -/
theorem simple_graph_bucket_invariants (cfg : Config) (ne : ℕ × ℕ) :
    List.Pairwise (nonIsoPair ne.1) (generateSimple cfg ne)
    ∧ ∀ g ∈ generateSimple cfg ne,
        veChi g.edges ne.1 ≤ cfg.cmax ∧ maxDegree ne.1 g.edges ≤ cfg.vmax := by
  obtain ⟨hp, hb⟩ := generateSimple_good cfg ne
  refine ⟨hp, ?_⟩
  intro g hg
  obtain ⟨hchi, hle, hmv, hmvle⟩ := hb g hg
  exact ⟨hchi ▸ hle, hmv ▸ hmvle⟩

theorem simple_graph_bucket_invariants_check :
    ((⟨[(0, 1)], 2, 1⟩ : SimpleEntry) ∈ generateSimple (defaultConfig 2) (2, 1))
    ∧ (veChi [(0, 1)] 2 ≤ (defaultConfig 2).cmax
        ∧ maxDegree 2 [(0, 1)] ≤ (defaultConfig 2).vmax) :=
  ⟨by decide,
    (simple_graph_bucket_invariants (defaultConfig 2) (2, 1)).2
      ⟨[(0, 1)], 2, 1⟩ (by decide)⟩

/-- C9: when `vmax >= dmax` (in particular at the default `vmax = dmax`)
the weighted-valency rejection of `generate_weights` is never applied: the
whole weighting search coincides with the variant that has no valency
check at all.  (The source guards the check by `vmax < dmax`,
gen.py line 200.) -/
theorem valency_rejection_inert (cfg : Config) (gs : Store)
    (h : cfg.dmax ≤ cfg.vmax) :
    generateWeights cfg gs = generateWeightsNoValency cfg gs := by
  funext ne
  unfold generateWeights generateWeightsNoValency
  split
  · rfl
  · split
    · refine List.map_congr_left fun g _ => ?_
      unfold weightingsFor weightingsForNoValency
      congr 1
      funext acc d
      congr 1
      funext acc2 part
      rw [if_neg]
      rintro ⟨h1, _⟩
      omega
    · rfl

/-- C7: for every configuration, every row of the prime spec table has a
`w` index that points inside the weight table, its `d` field equals the
sum of the weighting tuple stored at that index, and `d >= e`. -/
theorem prime_row_degree (cfg : Config) (i : ℕ)
    (h : i < (primeGen cfg).specs.length) :
    let r := (primeGen cfg).specs.getD i ⟨0, 0, 0, 0, 0, 0, 0, 0, 0⟩
    0 ≤ r.w ∧ r.w.toNat < (primeGen cfg).weights.length
      ∧ r.d = ((primeGen cfg).weights.getD r.w.toNat []).sum ∧ r.e ≤ r.d := by
  intro r
  have hinv := primeResultsOf_inv cfg (generateSimple cfg)
    (generateWeights cfg (generateSimple cfg))
    (fun ne wl hwl => generateWeights_valid cfg (generateSimple cfg) ne wl hwl)
  have hr : r ∈ (primeGen cfg).specs := by
    show (primeGen cfg).specs.getD i _ ∈ _
    rw [List.getD_eq_getElem _ _ h]
    exact List.getElem_mem h
  exact hinv.2 r hr

theorem prime_row_degree_check :
    0 < (primeGen (defaultConfig 2)).specs.length
    ∧ (let r := (primeGen (defaultConfig 2)).specs.getD 0
        ⟨0, 0, 0, 0, 0, 0, 0, 0, 0⟩
      0 ≤ r.w ∧ r.w.toNat < (primeGen (defaultConfig 2)).weights.length
        ∧ r.d = ((primeGen (defaultConfig 2)).weights.getD r.w.toNat []).sum
        ∧ r.e ≤ r.d) :=
  ⟨by decide, prime_row_degree (defaultConfig 2) 0 (by decide)⟩

/-- C6: for every configuration and every accepted simple graph (paired
with its accepted-weighting list in the weights table), no two accepted
weightings are isomorphic under the graph's edge-colour-preserving
automorphisms, in either direction: candidates isomorphic to an accepted
weighting are rejected (gen.py lines 204-213), and the special-cased
trivial weightings of the single-edge graph are pairwise non-isomorphic
because their colours differ. -/
theorem accepted_weightings_noniso (cfg : Config) (ne : ℕ × ℕ)
    (pr : SimpleEntry × List (List ℕ))
    (h : pr ∈ (generateSimple cfg ne).zip
        (generateWeights cfg (generateSimple cfg) ne)) :
    List.Pairwise (nonIsoWeightPair ne.1 pr.1.edges) pr.2 := by
  obtain ⟨g, wl⟩ := pr
  by_cases hcase1 : ne = (2, 1) ∧ 2 ∈ cfg.ns ∧ 1 ∈ cfg.esbyn 2
  · have hws : generateWeights cfg (generateSimple cfg) ne
        = [(List.range (cfg.dmaxAt 2 1)).map fun i => [i + 1]] := by
      unfold generateWeights
      exact if_pos hcase1
    rw [hws] at h
    obtain ⟨hg, hwl⟩ := List.of_mem_zip h
    rw [List.mem_singleton] at hwl
    subst hwl
    obtain ⟨hne, -, -⟩ := hcase1
    subst hne
    have hedges : g.edges = [(0, 1)] := generateSimple_bucket21 cfg g hg
    dsimp only
    rw [hedges]
    rw [List.pairwise_map]
    refine (List.pairwise_lt_range _).imp ?_
    intro i j hij
    constructor
    · intro hiso
      have := isoWeight_single hiso
      omega
    · intro hiso
      have := isoWeight_single hiso
      omega
  · by_cases hcase2 : ne.1 ∈ cfg.ns.tail ∧ ne.2 ∈ cfg.esbyn ne.1
    · have hws : generateWeights cfg (generateSimple cfg) ne
          = (generateSimple cfg ne).map
              fun g => weightingsFor cfg ne.1 ne.2 g := by
        unfold generateWeights
        rw [if_neg hcase1]
        exact if_pos hcase2
      rw [hws] at h
      have hwl := mem_zip_map _ _ _ h
      dsimp only at hwl
      subst hwl
      exact weightingsFor_pairwise cfg ne.1 ne.2 g
    · have hws : generateWeights cfg (generateSimple cfg) ne = [] := by
        unfold generateWeights
        rw [if_neg hcase1]
        exact if_neg hcase2
      rw [hws] at h
      exact absurd h (by simp)

theorem accepted_weightings_noniso_check :
    ((⟨[(0, 1)], 2, 1⟩, [[1], [2]]) ∈
      (generateSimple (defaultConfig 2) (2, 1)).zip
        (generateWeights (defaultConfig 2)
          (generateSimple (defaultConfig 2)) (2, 1)))
    ∧ List.Pairwise (nonIsoWeightPair 2 [(0, 1)]) [[1], [2]] :=
  ⟨by decide,
    accepted_weightings_noniso (defaultConfig 2) (2, 1)
      (⟨[(0, 1)], 2, 1⟩, [[1], [2]]) (by decide)⟩

theorem valency_rejection_inert_check :
    (defaultConfig 2).dmax ≤ (defaultConfig 2).vmax
    ∧ generateWeights (defaultConfig 2) (generateSimple (defaultConfig 2))
        = generateWeightsNoValency (defaultConfig 2)
            (generateSimple (defaultConfig 2)) :=
  ⟨by decide,
    valency_rejection_inert (defaultConfig 2)
      (generateSimple (defaultConfig 2)) (by decide)⟩

/-- C1 (counterexample): the spec's scenario `dmax=2` claims exactly two
prime rows (both for the single-edge graph) and an empty composite table;
the generated catalogue actually has three prime rows and a non-empty
composite table. -/
theorem dmax2_not_two_prime_rows :
    ¬ ((primeGen (defaultConfig 2)).specs.length = 2
        ∧ compositeDefault (primeGen (defaultConfig 2)).specs = []) := by
  decide

/-- C1 (amended): generation with `dmax=2` produces exactly three prime
rows — the single-edge graph `(n=2,e=1)` with weightings `d=1` and `d=2`,
plus the two-edge path `(n=3,e=2)` with `d=2` — and exactly one composite
row, the disjoint union of two single edges `(n=4,d=2)`. -/
theorem dmax2_catalogue :
    (primeGen (defaultConfig 2)).specs =
      [⟨2, 1, 1, 1, 0, 0, 0, 2, 1⟩, ⟨2, 1, 2, 1, 0, 0, 1, 2, 1⟩,
        ⟨3, 2, 2, 2, 0, 1, 2, 2, 1⟩]
    ∧ (primeGen (defaultConfig 2)).edges = [[(0, 1)], [(0, 1), (0, 2)]]
    ∧ (primeGen (defaultConfig 2)).weights = [[1], [2], [1, 1]]
    ∧ compositeDefault (primeGen (defaultConfig 2)).specs =
        [([(2, 1, 0), (2, 1, 0)], ⟨4, 1, 2, 1, 0, -1, -1, 2, 2⟩)] := by
  decide

/-- C2: in the full spec table of a `dmax=2` run with `comp_dmaxs={6: 4}`,
positions 4 and 5 hold distinct composite rows that share `n = 6`, `d = 4`
and `k = 0`; the `k` column is therefore not unique within `(n,d)` groups,
because `kcount` restarts at `self.ks[(n,d)]` for every `spec` in the
per-partition set (gen.py line 350). -/
theorem composite_duplicate_k :
    (generatorSpecsDict (defaultConfig 2) [6] fun _ => 4).length = 6
    ∧ (generatorSpecsDict (defaultConfig 2) [6] fun _ => 4).getD 4
        ⟨0, 0, 0, 0, 0, 0, 0, 0, 0⟩ = ⟨6, 2, 4, 2, 0, -1, -1, 2, 2⟩
    ∧ (generatorSpecsDict (defaultConfig 2) [6] fun _ => 4).getD 5
        ⟨0, 0, 0, 0, 0, 0, 0, 0, 0⟩ = ⟨6, 1, 4, 1, 0, -1, -1, 2, 3⟩ := by
  decide

/-- C3 (counterexample): with `dmax=2` the single-edge graph's accepted
weighting lists are exactly `[(1,), (2,)]`; the positive integer 3 yields
no accepted weighting `(3,)`, so the accepted set is not "the one-entry
tuples over all positive integers". -/
theorem single_edge_missing_weighting :
    generateWeights (defaultConfig 2) (generateSimple (defaultConfig 2)) (2, 1)
      = [[[1], [2]]]
    ∧ 1 ≤ 3 ∧ [3] ∉ [[1], [2]] := by
  decide

/-- C3 (amended): for any run whose containers have the `(2,1)` bucket
(`2 in ns` and `1 in esbyn[2]`), the accepted weightings of the
single-edge graph are exactly the one-entry tuples `(d,)` for the positive
integers `d` up to the degree budget `dmax`. -/
theorem single_edge_weightings (cfg : Config) (gs : Store)
    (h2 : 2 ∈ cfg.ns) (h1 : 1 ∈ cfg.esbyn 2) (w : List ℕ) :
    w ∈ (generateWeights cfg gs (2, 1)).flatten
      ↔ ∃ d, 1 ≤ d ∧ d ≤ cfg.dmax ∧ w = [d] := by
  rw [generateWeights_single_edge cfg gs h2 h1]
  simp only [List.flatten, List.append_nil, List.mem_map, List.mem_range]
  constructor
  · rintro ⟨i, hi, rfl⟩
    exact ⟨i + 1, by omega, by omega, rfl⟩
  · rintro ⟨d, hd1, hd2, rfl⟩
    exact ⟨d - 1, by omega, by congr 1; omega⟩

theorem single_edge_weightings_check :
    (2 ∈ (defaultConfig 2).ns ∧ 1 ∈ (defaultConfig 2).esbyn 2)
    ∧ ([1] ∈ (generateWeights (defaultConfig 2) (fun _ => []) (2, 1)).flatten
        ↔ ∃ d, 1 ≤ d ∧ d ≤ (defaultConfig 2).dmax ∧ [1] = [d]) :=
  ⟨⟨by decide, by decide⟩,
    single_edge_weightings (defaultConfig 2) (fun _ => []) (by decide)
      (by decide) [1]⟩

/-- C4: `softdrop` stops (returns the current jet) already when the
softdrop condition holds with equality, because the source compares
`z >= threshold` (fastjet_utils.py line 130) while the claim — and the
function's own docstring — state the strict condition `z > threshold`: on
a jet whose two parents both have transverse momentum 1, with
`z_cut = 1/2` and `beta = 0`, grooming returns the jet unchanged although
`min(pt1,pt2)/(pt1+pt2) > z_cut*(dR/R)^beta` fails. -/
theorem softdrop_stops_at_equality :
    softdrop (1 / 2) 0 1 (.merge 2 (1 / 2) (.particle 1) (.particle 1))
      = .merge 2 (1 / 2) (.particle 1) (.particle 1)
    ∧ ¬ (min (Jet.particle (1 : ℚ)).pt (Jet.particle (1 : ℚ)).pt
          / ((Jet.particle (1 : ℚ)).pt + (Jet.particle (1 : ℚ)).pt)
        > (1 / 2 : ℚ) * ((1 / 2 : ℚ) / 1) ^ (0 : ℕ)) := by
  constructor
  · norm_num [softdrop, Jet.pt]
  · norm_num [Jet.pt]

end EnergyFlow
